import Mathlib

/-!
Verification of the opinion-dynamics demo (`llm_opinion_sim.py`).

The tokenizer/vocabulary layer is embedded computably over `String` and
`Nat`.  The neural model `TinyLLM` is embedded over `ℝ`, with the stacked
transformer encoder kept opaque (an arbitrary function of the embedded
sequence and the padding mask), exactly as the design treats it: an
external sequence-encoder capability.  Error-raising Python code is
embedded with `Except`.
-/

namespace LLMOpinionSim

/-- `PAD_IDX = 0` from the source. -/
def PAD_IDX : Nat := 0

/-- `MAX_LEN = 6` from the source. -/
def MAX_LEN : Nat := 6

/-- Helper for Python `str.split()`: split a character list on runs of
whitespace, dropping empty chunks; `cur` is the (reversed) chunk in
progress. -/
def splitWsAux : List Char → List Char → List (List Char)
  | [], [] => []
  | [], cur => [cur.reverse]
  | c :: rest, cur =>
    if c.isWhitespace then
      if cur.isEmpty then splitWsAux rest []
      else cur.reverse :: splitWsAux rest []
    else splitWsAux rest (c :: cur)

/-- Python `text.split()`: the whitespace-delimited words of a text. -/
def pywords (t : String) : List String :=
  (splitWsAux t.data []).map String.mk

/-- Lexicographic comparison of character lists by code point, the order
Python's `sorted` uses on strings. -/
def wordLeAux : List Char → List Char → Bool
  | [], _ => true
  | _ :: _, [] => false
  | a :: as, b :: bs =>
    if a.toNat < b.toNat then true
    else if b.toNat < a.toNat then false
    else wordLeAux as bs

/-- Lexicographic (code-point) order on words. -/
def wordLe (a b : String) : Bool := wordLeAux a.data b.data

/-- `wordLe` as a relation, for sorting. -/
def wordRel (a b : String) : Prop := wordLe a b = true

instance : DecidableRel wordRel := fun a b =>
  inferInstanceAs (Decidable (wordLe a b = true))

/-- The dictionary-building loop of `build_vocab`: for each word in order,
if it is not yet a key, append it with the next id (`len(vocab)`). -/
def addWords : List (String × Nat) → List String → List (String × Nat)
  | acc, [] => acc
  | acc, w :: ws =>
    if acc.any (fun p => p.1 == w) then addWords acc ws
    else addWords (acc ++ [(w, acc.length)]) ws

/-- `build_vocab`: the distinct words of the sample texts, sorted
lexicographically, each assigned the next id after the reserved
`("<pad>", 0)` entry. -/
def build_vocab (samples : List String) : List (String × Nat) :=
  addWords [("<pad>", PAD_IDX)]
    (List.insertionSort wordRel (samples.flatMap pywords).dedup)

/-- The lookup loop of `encode`: look each word up in the vocabulary,
failing with the first missing word (Python's `KeyError`). -/
def encodeWords (vocab : List (String × Nat)) : List String → Except String (List Nat)
  | [] => .ok []
  | w :: ws =>
    match vocab.lookup w with
    | none => .error w
    | some i =>
      match encodeWords vocab ws with
      | .error e => .error e
      | .ok ids => .ok (i :: ids)

/-- `encode(text, vocab)`. -/
def encode (text : String) (vocab : List (String × Nat)) : Except String (List Nat) :=
  encodeWords vocab (pywords text)

/-- `pad_to_max`: reject sequences longer than `MAX_LEN`, otherwise
right-pad with `PAD_IDX` up to `MAX_LEN`. -/
def pad_to_max (tokens : List Nat) : Except String (List Nat) :=
  if MAX_LEN < tokens.length then .error "Text longer than MAX_LEN"
  else .ok (tokens ++ List.replicate (MAX_LEN - tokens.length) PAD_IDX)

/-- The composition `pad_to_max (encode text vocab)` used in `main`. -/
def encode_pad (text : String) (vocab : List (String × Nat)) : Except String (List Nat) :=
  match encode text vocab with
  | .error e => .error e
  | .ok ids => pad_to_max ids

/-- The parameters of `TinyLLM` with model dimension `d` and opinion
dimension `op`: the embedding table, the (opaque) transformer encoder
acting on the embedded sequence and the padding mask, and the two linear
layers `op_proj` and `head` as weight matrices with biases. -/
structure TinyLLM (d op : ℕ) where
  emb : Nat → Fin d → ℝ
  encoder : List (Fin d → ℝ) → List Bool → List (Fin d → ℝ)
  op_proj_w : Fin d → Fin op → ℝ
  op_proj_b : Fin d → ℝ
  head_w : Fin op → Fin d → ℝ
  head_b : Fin op → ℝ

/-- `mask.logical_not().sum(...).clamp(min=1)`: the number of non-padding
tokens, clamped below by 1. -/
def clampedLength (tokens : List Nat) : ℕ :=
  Nat.max (tokens.countP (fun t => !(t == PAD_IDX))) 1

/-- `TinyLLM.forward` on a single row: build the padding mask, embed,
encode, zero the encoder output at padding positions, mean-pool by the
clamped non-padding count, add the projected opinion, and apply the final
linear layer followed by `tanh`. -/
noncomputable def TinyLLM.forward {d op : ℕ} (m : TinyLLM d op)
    (tokens : List Nat) (opinion : Fin op → ℝ) : Fin op → ℝ :=
  let mask : List Bool := tokens.map (fun t => t == PAD_IDX)
  let x : List (Fin d → ℝ) := tokens.map m.emb
  let h : List (Fin d → ℝ) := m.encoder x mask
  let hMasked : List (Fin d → ℝ) :=
    List.zipWith (fun hi mi => if mi then (fun _ => (0 : ℝ)) else hi) h mask
  let pooled : Fin d → ℝ :=
    fun j => (hMasked.map (fun v => v j)).sum / (clampedLength tokens : ℝ)
  let context : Fin d → ℝ :=
    fun j => pooled j + ((∑ i, m.op_proj_w j i * opinion i) + m.op_proj_b j)
  fun i => Real.tanh ((∑ j, m.head_w i j * context j) + m.head_b i)

/-- `forward` on a batch of independent rows (the transformer attends
within a row only, so rows are independent). -/
noncomputable def TinyLLM.forwardBatch {d op : ℕ} (m : TinyLLM d op)
    (tokBatch : List (List Nat)) (opBatch : List (Fin op → ℝ)) :
    List (Fin op → ℝ) :=
  List.zipWith (fun t o => m.forward t o) tokBatch opBatch

/-- The per-agent update `agents[name] = 0.7 * opinion + 0.3 * update`
from the simulation loop. -/
noncomputable def smooth {n : ℕ} (opinion update : Fin n → ℝ) : Fin n → ℝ :=
  fun i => 0.7 * opinion i + 0.3 * update i

/-- The trajectory of a single agent through the simulation loop: for each
event in order, predict from the current opinion and blend; the list of
successive opinion vectors (one per event). -/
noncomputable def runAgent {d op : ℕ} (m : TinyLLM d op) :
    List (List Nat) → (Fin op → ℝ) → List (Fin op → ℝ)
  | [], _ => []
  | e :: es, o =>
    let o2 := smooth o (m.forward e o)
    o2 :: runAgent m es o2

/-- One event of the simulation loop: every agent's opinion is replaced by
the smoothed blend with the model's prediction for this event. -/
noncomputable def simEventStep {d op : ℕ} (m : TinyLLM d op)
    (agents : List (String × (Fin op → ℝ))) (toks : List Nat) :
    List (String × (Fin op → ℝ)) :=
  agents.map (fun p => (p.1, smooth p.2 (m.forward toks p.2)))

/-- The whole simulation loop as a transformer of the state
(model parameters, agent roster): fold the per-event step over the
timeline.  The parameters component is carried through unchanged. -/
noncomputable def simLoop {d op : ℕ} (events : List (List Nat))
    (s : TinyLLM d op × List (String × (Fin op → ℝ))) :
    TinyLLM d op × List (String × (Fin op → ℝ)) :=
  events.foldl (fun s e => (s.1, simEventStep s.1 s.2 e)) s

/-- The eight hard-coded training sample texts from `main`. -/
def train_texts : List String :=
  ["climate change urgent action",
   "renewable energy breakthrough",
   "tax cuts boost economy",
   "automation job loss fears",
   "ai ethics regulation",
   "economic downturn recession",
   "tech innovation boom",
   "green jobs program"]

/-- The hard-coded 5-event timeline from `main`. -/
def timeline : List String :=
  ["climate change urgent action",
   "green jobs program",
   "tax cuts boost economy",
   "automation job loss fears",
   "tech innovation boom"]

/-- The vocabulary `main` builds from the training samples. -/
def main_vocab : List (String × Nat) := build_vocab train_texts

/-- The padded token rows `main` computes for the timeline events. -/
def timelineTokens : List (List Nat) :=
  timeline.map (fun e => ((encode_pad e main_vocab).toOption).getD [])

/-- Agent Ava's initial opinion vector `[0.2, -0.1, 0.1]`. -/
noncomputable def avaInit : Fin 3 → ℝ := ![0.2, -0.1, 0.1]

/-- A concrete instantiation of the model parameters, used to exercise the
generic theorems on explicit inputs. -/
noncomputable def witModel : TinyLLM 1 3 :=
  ⟨fun _ _ => 0, fun x _ => x, fun _ _ => 0, fun _ => 0, fun _ _ => 0, fun _ => 0⟩

/-- Pair each word of a list with successive ids starting at `n`; the
closed form of the `addWords` loop when no word is already a key. -/
def enumIds : ℕ → List String → List (String × Nat)
  | _, [] => []
  | n, w :: ws => (w, n) :: enumIds (n + 1) ws

/-! ## Theorems -/

/-- The real hyperbolic tangent lies strictly within `(-1, 1)`. -/
theorem tanh_bounds (x : ℝ) : -1 < Real.tanh x ∧ Real.tanh x < 1 := by
  have hc : 0 < Real.cosh x := Real.cosh_pos x
  constructor
  · rw [Real.tanh_eq_sinh_div_cosh, lt_div_iff₀ hc]
    nlinarith [Real.exp_pos x, Real.cosh_add_sinh x]
  · rw [Real.tanh_eq_sinh_div_cosh, div_lt_one hc]
    nlinarith [Real.exp_pos (-x), Real.cosh_sub_sinh x]

/-- Claim C1: for every model parameterisation and every (token sequence,
opinion vector) input, each component of `TinyLLM.forward` lies strictly
within the open interval `(-1, 1)`, because the final layer applies
`tanh`. -/
theorem claim1_forward_bounded {d op : ℕ} (m : TinyLLM d op)
    (tokens : List Nat) (opinion : Fin op → ℝ) (i : Fin op) :
    -1 < m.forward tokens opinion i ∧ m.forward tokens opinion i < 1 :=
  tanh_bounds _

/-- Claim C2: the per-agent update is `0.7·old + (1 − 0.7)·predicted`, and
each component of the result lies between the minimum and the maximum of
the corresponding components of the old opinion and the prediction. -/
theorem claim2_smooth_convex {n : ℕ} (o u : Fin n → ℝ) (i : Fin n) :
    smooth o u i = 0.7 * o i + (1 - 0.7) * u i ∧
    min (o i) (u i) ≤ smooth o u i ∧ smooth o u i ≤ max (o i) (u i) := by
  refine ⟨by norm_num [smooth], ?_, ?_⟩
  · rcases le_total (o i) (u i) with h | h
    · rw [min_eq_left h]; simp only [smooth]; linarith
    · rw [min_eq_right h]; simp only [smooth]; linarith
  · rcases le_total (o i) (u i) with h | h
    · rw [max_eq_right h]; simp only [smooth]; linarith
    · rw [max_eq_left h]; simp only [smooth]; linarith

/-- Claim C6: on an all-padding row the clamped non-padding count is `1`
(so the pooling division is by `1`, not `0`), and `forward` still returns
a well-defined vector with every component finite (indeed strictly inside
`(-1, 1)`). -/
theorem claim6_allpad_safe {d op : ℕ} (m : TinyLLM d op) (tokens : List Nat)
    (opinion : Fin op → ℝ) (h : ∀ t ∈ tokens, t = PAD_IDX) :
    clampedLength tokens = 1 ∧
    ∀ i, -1 < m.forward tokens opinion i ∧ m.forward tokens opinion i < 1 := by
  constructor
  · have hz : tokens.countP (fun t => !(t == PAD_IDX)) = 0 := by
      rw [List.countP_eq_zero]
      intro a ha
      simp [h a ha]
    simp [clampedLength, hz]
  · intro i
    exact tanh_bounds _

/-- Witness for C6 at the all-padding row `[0, 0, 0, 0, 0, 0]`. -/
theorem claim6_witness :
    (∀ t ∈ ([0, 0, 0, 0, 0, 0] : List Nat), t = PAD_IDX) ∧
    (clampedLength [0, 0, 0, 0, 0, 0] = 1 ∧
      ∀ i, -1 < witModel.forward [0, 0, 0, 0, 0, 0] (fun _ => 0) i ∧
        witModel.forward [0, 0, 0, 0, 0, 0] (fun _ => 0) i < 1) :=
  ⟨by decide, claim6_allpad_safe witModel [0, 0, 0, 0, 0, 0] (fun _ => 0) (by decide)⟩

/-- Claim C8: `forward` on a batch is a pure function of the parameters
and the inputs — identical parameters and batches give identical outputs
(there is no hidden state to thread) — and when the two batch dimensions
agree the output batch has exactly that length (each row having opinion
dimension `op` by its type). -/
theorem claim8_forward_pure {d op : ℕ} (m : TinyLLM d op)
    (toks toks2 : List (List Nat)) (ops ops2 : List (Fin op → ℝ))
    (hlen : toks.length = ops.length) (ht : toks2 = toks) (ho : ops2 = ops) :
    (m.forwardBatch toks ops).length = toks.length ∧
    m.forwardBatch toks2 ops2 = m.forwardBatch toks ops := by
  subst ht ho
  refine ⟨?_, rfl⟩
  simp [TinyLLM.forwardBatch, hlen]

/-- Witness for C8 on a concrete one-row batch. -/
theorem claim8_witness :
    (witModel.forwardBatch [[0, 0, 0, 0, 0, 0]] [fun _ => 0]).length =
      ([[0, 0, 0, 0, 0, 0]] : List (List Nat)).length ∧
    witModel.forwardBatch [[0, 0, 0, 0, 0, 0]] [fun _ => 0] =
      witModel.forwardBatch [[0, 0, 0, 0, 0, 0]] [fun _ => 0] :=
  claim8_forward_pure witModel [[0, 0, 0, 0, 0, 0]] [[0, 0, 0, 0, 0, 0]]
    [fun _ => 0] [fun _ => 0] rfl rfl rfl

/-- `forward` outputs are componentwise within `[-1, 1]`. -/
theorem forward_mem_unit {d op : ℕ} (m : TinyLLM d op)
    (tokens : List Nat) (opinion : Fin op → ℝ) (i : Fin op) :
    -1 ≤ m.forward tokens opinion i ∧ m.forward tokens opinion i ≤ 1 :=
  ⟨le_of_lt (tanh_bounds _).1, le_of_lt (tanh_bounds _).2⟩

/-- The smoothing update of two componentwise `[-1, 1]`-bounded vectors is
componentwise `[-1, 1]`-bounded. -/
theorem smooth_mem_unit {n : ℕ} (o u : Fin n → ℝ) (i : Fin n)
    (ho : -1 ≤ o i ∧ o i ≤ 1) (hu : -1 ≤ u i ∧ u i ≤ 1) :
    -1 ≤ smooth o u i ∧ smooth o u i ≤ 1 := by
  obtain ⟨h1, h2⟩ := ho
  obtain ⟨h3, h4⟩ := hu
  constructor <;> simp only [smooth] <;> linarith

/-- Claim C3: starting from a componentwise `[-1, 1]`-bounded opinion, the
simulation produces one opinion vector per event, and every vector in the
trajectory stays componentwise within `[-1, 1]` (the update is a convex
combination of bounded quantities, and model predictions are bounded). -/
theorem claim3_invariant {d op : ℕ} (m : TinyLLM d op)
    (events : List (List Nat)) (o : Fin op → ℝ)
    (h : ∀ i, -1 ≤ o i ∧ o i ≤ 1) :
    (runAgent m events o).length = events.length ∧
    ∀ v ∈ runAgent m events o, ∀ i, -1 ≤ v i ∧ v i ≤ 1 := by
  induction events generalizing o with
  | nil => simp [runAgent]
  | cons e es ih =>
    have hb : ∀ i, -1 ≤ smooth o (m.forward e o) i ∧ smooth o (m.forward e o) i ≤ 1 :=
      fun i => smooth_mem_unit o (m.forward e o) i (h i) (forward_mem_unit m e o i)
    obtain ⟨hlen, hbnd⟩ := ih (smooth o (m.forward e o)) hb
    refine ⟨by simp [runAgent, hlen], ?_⟩
    intro v hv
    simp only [runAgent, List.mem_cons] at hv
    rcases hv with rfl | hv
    · exact hb
    · exact hbnd v hv

/-- Witness for C3: agent Ava's initial opinion `[0.2, -0.1, 0.1]` run
over the 5-event timeline yields exactly 5 bounded opinion vectors. -/
theorem claim3_witness :
    (∀ i, -1 ≤ avaInit i ∧ avaInit i ≤ 1) ∧
    timelineTokens.length = 5 ∧
    ((runAgent witModel timelineTokens avaInit).length = timelineTokens.length ∧
      ∀ v ∈ runAgent witModel timelineTokens avaInit, ∀ i, -1 ≤ v i ∧ v i ≤ 1) := by
  have h : ∀ i, -1 ≤ avaInit i ∧ avaInit i ≤ 1 := by
    intro i
    fin_cases i <;> constructor <;> norm_num [avaInit]
  exact ⟨h, by decide, claim3_invariant witModel timelineTokens avaInit h⟩

/-- Claim C9: the simulation loop never mutates the model parameters —
the parameters component of the state is returned unchanged — and the
only mutation of agent state is exactly one smoothing update per
(event, agent) pair: each agent's final opinion is the fold of one update
per event over its initial opinion, with names and roster preserved. -/
theorem claim9_frame {d op : ℕ} (m : TinyLLM d op) (events : List (List Nat))
    (agents : List (String × (Fin op → ℝ))) :
    (simLoop events (m, agents)).1 = m ∧
    (simLoop events (m, agents)).2 =
      agents.map
        (fun p => (p.1, events.foldl (fun o e => smooth o (m.forward e o)) p.2)) := by
  induction events generalizing agents with
  | nil =>
    refine ⟨rfl, ?_⟩
    simp [simLoop]
  | cons e es ih =>
    have key : simLoop (e :: es) (m, agents) = simLoop es (m, simEventStep m agents e) := rfl
    obtain ⟨h1, h2⟩ := ih (simEventStep m agents e)
    refine ⟨by rw [key, h1], ?_⟩
    rw [key, h2, simEventStep, List.map_map]
    simp [Function.comp]

/-- Claim C10: every timeline event occurs verbatim among the training
texts, has at most `MAX_LEN` words all present in the built vocabulary,
and hence the encode-and-pad step of `main` succeeds on it, producing a
row of length `MAX_LEN`. -/
theorem claim10_timeline_safe (e : String) (he : e ∈ timeline) :
    e ∈ train_texts ∧
    (pywords e).length ≤ MAX_LEN ∧
    (∀ w ∈ pywords e, (main_vocab.lookup w).isSome = true) ∧
    (encode_pad e main_vocab).isOk = true ∧
    ((encode_pad e main_vocab).toOption.getD []).length = MAX_LEN := by
  fin_cases he <;> exact (by decide)

/-- Witness for C10 at the first timeline event. -/
theorem claim10_witness :
    ("climate change urgent action" ∈ timeline) ∧
    ("climate change urgent action" ∈ train_texts ∧
      (pywords "climate change urgent action").length ≤ MAX_LEN ∧
      (∀ w ∈ pywords "climate change urgent action",
        (main_vocab.lookup w).isSome = true) ∧
      (encode_pad "climate change urgent action" main_vocab).isOk = true ∧
      ((encode_pad "climate change urgent action" main_vocab).toOption.getD []).length =
        MAX_LEN) :=
  ⟨by decide, claim10_timeline_safe "climate change urgent action" (by decide)⟩

/-- `encodeWords` fails precisely when some word has no vocabulary entry. -/
theorem encodeWords_error_iff (vocab : List (String × Nat)) (ws : List String) :
    (∃ w ∈ ws, vocab.lookup w = none) ↔ ∃ msg, encodeWords vocab ws = .error msg := by
  induction ws with
  | nil => simp [encodeWords]
  | cons w ws ih =>
    constructor
    · rintro ⟨w2, hw2, hnone⟩
      rcases List.mem_cons.mp hw2 with rfl | hmem
      · exact ⟨w2, by simp [encodeWords, hnone]⟩
      · obtain ⟨msg, herr⟩ := ih.mp ⟨w2, hmem, hnone⟩
        cases hl : vocab.lookup w with
        | none => exact ⟨w, by simp [encodeWords, hl]⟩
        | some i => exact ⟨msg, by simp [encodeWords, hl, herr]⟩
    · rintro ⟨msg, herr⟩
      cases hl : vocab.lookup w with
      | none => exact ⟨w, List.mem_cons_self w ws, hl⟩
      | some i =>
        cases he : encodeWords vocab ws with
        | error msg2 =>
          obtain ⟨w2, hmem, hnone⟩ := ih.mpr ⟨msg2, he⟩
          exact ⟨w2, List.mem_cons_of_mem w hmem, hnone⟩
        | ok ids => simp [encodeWords, hl, he] at herr

/-- When every word has a vocabulary entry, `encodeWords` returns the
looked-up ids in word order. -/
theorem encodeWords_ok (vocab : List (String × Nat)) (ws : List String)
    (h : ∀ w ∈ ws, (vocab.lookup w).isSome = true) :
    encodeWords vocab ws = .ok (ws.map (fun w => (vocab.lookup w).getD 0)) := by
  induction ws with
  | nil => rfl
  | cons w ws ih =>
    obtain ⟨i, hi⟩ := Option.isSome_iff_exists.mp (h w (List.mem_cons_self w ws))
    have hrest := ih (fun w2 hw2 => h w2 (List.mem_cons_of_mem w hw2))
    simp [encodeWords, hi, hrest]

/-- A successful encoding has one id per word. -/
theorem encodeWords_length (vocab : List (String × Nat)) (ws : List String)
    (ids : List Nat) (h : encodeWords vocab ws = .ok ids) :
    ids.length = ws.length := by
  induction ws generalizing ids with
  | nil =>
    simp only [encodeWords, Except.ok.injEq] at h
    subst h
    rfl
  | cons w ws ih =>
    simp only [encodeWords] at h
    cases hl : vocab.lookup w with
    | none => rw [hl] at h; exact absurd h (by simp)
    | some i =>
      rw [hl] at h
      cases he : encodeWords vocab ws with
      | error msg => rw [he] at h; exact absurd h (by simp)
      | ok ids2 =>
        rw [he] at h
        simp only [Except.ok.injEq] at h
        subst h
        simp [ih ids2 he]

/-- Claim C7: `encode` fails with the (catchable) missing-word error value
exactly when some whitespace-delimited word of the text is absent from
the vocabulary, and otherwise returns the looked-up ids in word order. -/
theorem claim7_encode_missing (text : String) (vocab : List (String × Nat)) :
    ((∃ w ∈ pywords text, vocab.lookup w = none) ↔
      ∃ msg, encode text vocab = .error msg) ∧
    ((∀ w ∈ pywords text, (vocab.lookup w).isSome = true) →
      encode text vocab = .ok ((pywords text).map (fun w => (vocab.lookup w).getD 0))) :=
  ⟨encodeWords_error_iff vocab (pywords text),
   fun h => encodeWords_ok vocab (pywords text) h⟩

/-- Witness for C7: the word "solar" is missing from the built vocabulary,
so encoding "solar energy" fails; and the fully-known text
"tax cuts boost economy" encodes to its looked-up ids. -/
theorem claim7_witness :
    (∃ msg, encode "solar energy" main_vocab = .error msg) ∧
    encode "tax cuts boost economy" main_vocab =
      .ok ((pywords "tax cuts boost economy").map
        (fun w => (main_vocab.lookup w).getD 0)) :=
  ⟨(claim7_encode_missing "solar energy" main_vocab).1.mp
      ⟨"solar", by decide, by decide⟩,
   (claim7_encode_missing "tax cuts boost economy" main_vocab).2 (by decide)⟩

/-- Claim C4: when a text's word count is within `MAX_LEN` and it encodes
successfully, padding yields a row of length exactly `MAX_LEN` whose first
`wordCount` entries are the encoded ids and whose remainder is padding;
and any token sequence longer than `MAX_LEN` is rejected with the
too-long error. -/
theorem claim4_pad (text : String) (vocab : List (String × Nat))
    (ids seq : List Nat) (henc : encode text vocab = .ok ids)
    (hlen : (pywords text).length ≤ MAX_LEN)
    (hseq : MAX_LEN < seq.length) :
    pad_to_max ids =
      .ok (ids ++ List.replicate (MAX_LEN - (pywords text).length) PAD_IDX) ∧
    (ids ++ List.replicate (MAX_LEN - (pywords text).length) PAD_IDX).length = MAX_LEN ∧
    (ids ++ List.replicate (MAX_LEN - (pywords text).length) PAD_IDX).take
      (pywords text).length = ids ∧
    (ids ++ List.replicate (MAX_LEN - (pywords text).length) PAD_IDX).drop
      (pywords text).length = List.replicate (MAX_LEN - (pywords text).length) PAD_IDX ∧
    pad_to_max seq = .error "Text longer than MAX_LEN" := by
  have hlip : ids.length = (pywords text).length :=
    encodeWords_length vocab (pywords text) ids henc
  refine ⟨?_, ?_, ?_, ?_, ?_⟩
  · rw [pad_to_max, if_neg (by omega), hlip]
  · simp only [List.length_append, List.length_replicate]
    omega
  · rw [← hlip, List.take_left]
  · rw [← hlip, List.drop_left]
  · rw [pad_to_max, if_pos hseq]

/-- Witness for C4 at the text "tax cuts boost economy" (4 words) and the
over-long sequence `[0, 0, 0, 0, 0, 0, 0]`. -/
theorem claim4_witness :
    encode "tax cuts boost economy" main_vocab = .ok [25, 9, 5, 12] ∧
    (pywords "tax cuts boost economy").length ≤ MAX_LEN ∧
    MAX_LEN < ([0, 0, 0, 0, 0, 0, 0] : List Nat).length ∧
    (pad_to_max [25, 9, 5, 12] =
      .ok ([25, 9, 5, 12] ++
        List.replicate (MAX_LEN - (pywords "tax cuts boost economy").length) PAD_IDX) ∧
    ([25, 9, 5, 12] ++
      List.replicate (MAX_LEN - (pywords "tax cuts boost economy").length)
        PAD_IDX).length = MAX_LEN ∧
    ([25, 9, 5, 12] ++
      List.replicate (MAX_LEN - (pywords "tax cuts boost economy").length) PAD_IDX).take
        (pywords "tax cuts boost economy").length = [25, 9, 5, 12] ∧
    ([25, 9, 5, 12] ++
      List.replicate (MAX_LEN - (pywords "tax cuts boost economy").length) PAD_IDX).drop
        (pywords "tax cuts boost economy").length =
      List.replicate (MAX_LEN - (pywords "tax cuts boost economy").length) PAD_IDX ∧
    pad_to_max [0, 0, 0, 0, 0, 0, 0] = .error "Text longer than MAX_LEN") :=
  ⟨by rfl, by decide, by decide,
   claim4_pad "tax cuts boost economy" main_vocab [25, 9, 5, 12]
     [0, 0, 0, 0, 0, 0, 0] (by rfl) (by decide) (by decide)⟩

/-- `wordLeAux` is reflexive. -/
theorem wordLeAux_refl (as : List Char) : wordLeAux as as = true := by
  induction as with
  | nil => rfl
  | cons a as ih => simp [wordLeAux, ih]

/-- `wordLeAux` is total. -/
theorem wordLeAux_total (as bs : List Char) :
    wordLeAux as bs = true ∨ wordLeAux bs as = true := by
  induction as generalizing bs with
  | nil => left; rfl
  | cons a as ih =>
    cases bs with
    | nil => right; rfl
    | cons b bs =>
      rcases Nat.lt_trichotomy a.toNat b.toNat with h | h | h
      · left; simp [wordLeAux, h]
      · rcases ih bs with h2 | h2
        · left; simp [wordLeAux, h, h2]
        · right; simp [wordLeAux, h, h2]
      · right; simp [wordLeAux, h]

/-- `wordLeAux` is transitive. -/
theorem wordLeAux_trans (as bs cs : List Char)
    (h1 : wordLeAux as bs = true) (h2 : wordLeAux bs cs = true) :
    wordLeAux as cs = true := by
  induction as generalizing bs cs with
  | nil => rfl
  | cons a as ih =>
    cases bs with
    | nil => simp [wordLeAux] at h1
    | cons b bs =>
      cases cs with
      | nil => simp [wordLeAux] at h2
      | cons c cs =>
        simp only [wordLeAux] at h1 h2 ⊢
        split_ifs at h1 h2 ⊢ <;>
          first
            | rfl
            | omega
            | exact ih bs cs h1 h2

/-- The keys of `enumIds n ws` are exactly `ws`. -/
theorem enumIds_fst (n : ℕ) (ws : List String) :
    (enumIds n ws).map Prod.fst = ws := by
  induction ws generalizing n with
  | nil => rfl
  | cons w ws ih => simp [enumIds, ih]

/-- Every id produced by `enumIds n ws` is at least `n`. -/
theorem enumIds_snd_ge (n : ℕ) (ws : List String) (w : String) (i : ℕ)
    (h : (w, i) ∈ enumIds n ws) : n ≤ i := by
  induction ws generalizing n with
  | nil => simp [enumIds] at h
  | cons a ws ih =>
    simp only [enumIds, List.mem_cons, Prod.mk.injEq] at h
    rcases h with ⟨_, rfl⟩ | h
    · exact le_refl _
    · exact le_trans (Nat.le_succ _) (ih _ h)

/-- Every word of `ws` receives some id from `enumIds n ws`. -/
theorem enumIds_total (n : ℕ) (ws : List String) (w : String) (h : w ∈ ws) :
    ∃ i, (w, i) ∈ enumIds n ws := by
  induction ws generalizing n with
  | nil => simp at h
  | cons a ws ih =>
    rcases List.mem_cons.mp h with rfl | h
    · exact ⟨n, List.mem_cons_self _ _⟩
    · obtain ⟨i, hi⟩ := ih (n + 1) h
      exact ⟨i, List.mem_cons_of_mem _ hi⟩

/-- With distinct words, each word receives a unique id. -/
theorem enumIds_key_unique (n : ℕ) (ws : List String) (hnd : ws.Nodup)
    (w : String) (i j : ℕ) (hi : (w, i) ∈ enumIds n ws)
    (hj : (w, j) ∈ enumIds n ws) : i = j := by
  induction ws generalizing n with
  | nil => simp [enumIds] at hi
  | cons a ws ih =>
    obtain ⟨hna, hnd2⟩ := List.nodup_cons.mp hnd
    simp only [enumIds, List.mem_cons, Prod.mk.injEq] at hi hj
    rcases hi with ⟨rfl, rfl⟩ | hi
    · rcases hj with ⟨_, rfl⟩ | hj
      · rfl
      · have : w ∈ ws :=
          (enumIds_fst _ ws) ▸ List.mem_map_of_mem Prod.fst hj
        exact absurd this hna
    · rcases hj with ⟨rfl, rfl⟩ | hj
      · have : w ∈ ws :=
          (enumIds_fst _ ws) ▸ List.mem_map_of_mem Prod.fst hi
        exact absurd this hna
      · exact ih _ hnd2 hi hj

/-- No two distinct words share an id. -/
theorem enumIds_id_unique (n : ℕ) (ws : List String) (w1 w2 : String) (i : ℕ)
    (h1 : (w1, i) ∈ enumIds n ws) (h2 : (w2, i) ∈ enumIds n ws) : w1 = w2 := by
  induction ws generalizing n with
  | nil => simp [enumIds] at h1
  | cons a ws ih =>
    simp only [enumIds, List.mem_cons, Prod.mk.injEq] at h1 h2
    rcases h1 with ⟨rfl, rfl⟩ | h1
    · rcases h2 with ⟨rfl, _⟩ | h2
      · rfl
      · exact absurd (enumIds_snd_ge (i + 1) ws w2 i h2) (by omega)
    · rcases h2 with ⟨rfl, rfl⟩ | h2
      · exact absurd (enumIds_snd_ge (i + 1) ws w1 i h1) (by omega)
      · exact ih (n + 1) h1 h2

/-- On a sorted, duplicate-free word list, ids are strictly increasing in
the word order. -/
theorem enumIds_mono (n : ℕ) (ws : List String) (hs : ws.Sorted wordRel)
    (hnd : ws.Nodup) (w1 : String) (i1 : ℕ) (w2 : String) (i2 : ℕ)
    (h1 : (w1, i1) ∈ enumIds n ws) (h2 : (w2, i2) ∈ enumIds n ws)
    (hle : wordRel w1 w2) (hne : ¬ wordRel w2 w1) : i1 < i2 := by
  induction ws generalizing n with
  | nil => simp [enumIds] at h1
  | cons a ws ih =>
    obtain ⟨hra, hs2⟩ := List.sorted_cons.mp hs
    obtain ⟨hna, hnd2⟩ := List.nodup_cons.mp hnd
    simp only [enumIds, List.mem_cons, Prod.mk.injEq] at h1 h2
    rcases h1 with ⟨rfl, rfl⟩ | h1
    · rcases h2 with ⟨rfl, rfl⟩ | h2
      · exact absurd hle hne
      · have := enumIds_snd_ge (i1 + 1) ws w2 i2 h2
        omega
    · rcases h2 with ⟨rfl, rfl⟩ | h2
      · have hw1 : w1 ∈ ws :=
          (enumIds_fst (i2 + 1) ws) ▸ List.mem_map_of_mem Prod.fst h1
        exact absurd (hra w1 hw1) hne
      · exact ih (n + 1) hs2 hnd2 h1 h2

/-- When none of the (duplicate-free) words is already a key of the
accumulator, the `addWords` loop appends each word with the next
successive id. -/
theorem addWords_closed (ws : List String) (acc : List (String × Nat))
    (hnd : ws.Nodup)
    (h : ∀ w ∈ ws, acc.any (fun p => p.1 == w) = false) :
    addWords acc ws = acc ++ enumIds acc.length ws := by
  induction ws generalizing acc with
  | nil => simp [addWords, enumIds]
  | cons w ws ih =>
    obtain ⟨hnw, hnd2⟩ := List.nodup_cons.mp hnd
    have hw := h w (List.mem_cons_self w ws)
    rw [addWords, if_neg (by simp [hw])]
    have hacc : ∀ w2 ∈ ws,
        (acc ++ [(w, acc.length)]).any (fun p => p.1 == w2) = false := by
      intro w2 hw2
      rw [List.any_append]
      have hne : (w == w2) = false := by
        have : w ≠ w2 := fun he => hnw (he ▸ hw2)
        simpa using this
      simp [h w2 (List.mem_cons_of_mem w hw2), hne]
    rw [ih (acc ++ [(w, acc.length)]) hnd2 hacc]
    simp [enumIds]

/-- When the padding placeholder is not a training word, `build_vocab` is
the padding entry followed by the sorted distinct words paired with the
ids `1, 2, …`. -/
theorem build_vocab_closed (samples : List String)
    (h : "<pad>" ∉ samples.flatMap pywords) :
    build_vocab samples =
      ("<pad>", 0) ::
        enumIds 1 (List.insertionSort wordRel (samples.flatMap pywords).dedup) := by
  have hnd : (List.insertionSort wordRel (samples.flatMap pywords).dedup).Nodup :=
    (List.perm_insertionSort wordRel _).nodup_iff.mpr (List.nodup_dedup _)
  have hnp : ∀ w ∈ List.insertionSort wordRel (samples.flatMap pywords).dedup,
      ([(("<pad>" : String), PAD_IDX)]).any (fun p => p.1 == w) = false := by
    intro w hw
    have hmem : w ∈ samples.flatMap pywords :=
      List.mem_dedup.mp ((List.perm_insertionSort wordRel _).mem_iff.mp hw)
    have : ("<pad>" : String) ≠ w := fun he => h (he ▸ hmem)
    simpa using this
  rw [build_vocab, addWords_closed _ _ hnd hnp]
  rfl

/-- The sorted distinct word list underlying `build_vocab`. -/
theorem sorted_distinct_words (samples : List String) :
    (List.insertionSort wordRel (samples.flatMap pywords).dedup).Sorted wordRel ∧
    (List.insertionSort wordRel (samples.flatMap pywords).dedup).Nodup :=
  ⟨@List.sorted_insertionSort String wordRel _
      ⟨fun a b => wordLeAux_total a.data b.data⟩
      ⟨fun a b c => wordLeAux_trans a.data b.data c.data⟩ _,
   (List.perm_insertionSort wordRel _).nodup_iff.mpr (List.nodup_dedup _)⟩

/-- Claim C5 (amended): for every training set whose texts do not contain
the literal word `"<pad>"`, the vocabulary maps the padding placeholder
`"<pad>"` to id 0, assigns every distinct whitespace-delimited word of the
training texts a distinct integer id ≥ 1 in sorted lexical order with no
two words sharing an id, and an empty training set yields only the
padding entry. -/
theorem claim5_vocab_amended (samples : List String)
    (h : "<pad>" ∉ samples.flatMap pywords) :
    (("<pad>", 0) ∈ build_vocab samples) ∧
    (∀ w ∈ samples.flatMap pywords, ∃ i, (w, i) ∈ build_vocab samples ∧ 1 ≤ i) ∧
    (∀ w i j, (w, i) ∈ build_vocab samples → (w, j) ∈ build_vocab samples →
      i = j) ∧
    (∀ w1 w2 i, (w1, i) ∈ build_vocab samples → (w2, i) ∈ build_vocab samples →
      w1 = w2) ∧
    (∀ w1 i1 w2 i2, (w1, i1) ∈ build_vocab samples →
      (w2, i2) ∈ build_vocab samples → w1 ≠ "<pad>" → w2 ≠ "<pad>" →
      wordRel w1 w2 → ¬ wordRel w2 w1 → i1 < i2) ∧
    (samples = [] → build_vocab samples = [("<pad>", 0)]) := by
  have hcl := build_vocab_closed samples h
  obtain ⟨hsort, hnd⟩ := sorted_distinct_words samples
  have hmem_ws : ∀ w, w ∈ List.insertionSort wordRel (samples.flatMap pywords).dedup ↔
      w ∈ samples.flatMap pywords := by
    intro w
    rw [(List.perm_insertionSort wordRel _).mem_iff, List.mem_dedup]
  have henum : ∀ w i, (w, i) ∈
      enumIds 1 (List.insertionSort wordRel (samples.flatMap pywords).dedup) →
      w ∈ samples.flatMap pywords := by
    intro w i hw
    have hm := List.mem_map_of_mem Prod.fst hw
    rw [enumIds_fst] at hm
    exact (hmem_ws w).mp hm
  refine ⟨?_, ?_, ?_, ?_, ?_, ?_⟩
  · rw [hcl]; exact List.mem_cons_self _ _
  · intro w hw
    obtain ⟨i, hi⟩ := enumIds_total 1 _ w ((hmem_ws w).mpr hw)
    exact ⟨i, hcl ▸ List.mem_cons_of_mem _ hi, enumIds_snd_ge 1 _ w i hi⟩
  · intro w i j hi hj
    rw [hcl] at hi hj
    rcases List.mem_cons.mp hi with hi0 | hi1
    · rcases List.mem_cons.mp hj with hj0 | hj1
      · rw [Prod.mk.injEq] at hi0 hj0
        omega
      · have hw : w = "<pad>" := congrArg Prod.fst hi0
        exact absurd (hw ▸ henum w j hj1) h
    · rcases List.mem_cons.mp hj with hj0 | hj1
      · have hw : w = "<pad>" := congrArg Prod.fst hj0
        exact absurd (hw ▸ henum w i hi1) h
      · exact enumIds_key_unique 1 _ hnd w i j hi1 hj1
  · intro w1 w2 i hi hj
    rw [hcl] at hi hj
    rcases List.mem_cons.mp hi with hi0 | hi1
    · rcases List.mem_cons.mp hj with hj0 | hj1
      · rw [Prod.mk.injEq] at hi0 hj0
        rw [hi0.1, hj0.1]
      · rw [Prod.mk.injEq] at hi0
        exact absurd (enumIds_snd_ge 1 _ w2 i hj1) (by omega)
    · rcases List.mem_cons.mp hj with hj0 | hj1
      · rw [Prod.mk.injEq] at hj0
        exact absurd (enumIds_snd_ge 1 _ w1 i hi1) (by omega)
      · exact enumIds_id_unique 1 _ w1 w2 i hi1 hj1
  · intro w1 i1 w2 i2 hi hj hp1 hp2 hle hnle
    rw [hcl] at hi hj
    rcases List.mem_cons.mp hi with hi0 | hi1
    · exact absurd (congrArg Prod.fst hi0) hp1
    · rcases List.mem_cons.mp hj with hj0 | hj1
      · exact absurd (congrArg Prod.fst hj0) hp2
      · exact enumIds_mono 1 _ hsort hnd w1 i1 w2 i2 hi1 hj1 hle hnle
  · rintro rfl
    decide

/-- Witness for C5 (amended) at the real 8-sample training set. -/
theorem claim5_witness :
    ("<pad>" ∉ train_texts.flatMap pywords) ∧
    ((("<pad>", 0) ∈ build_vocab train_texts) ∧
    (∀ w ∈ train_texts.flatMap pywords,
      ∃ i, (w, i) ∈ build_vocab train_texts ∧ 1 ≤ i) ∧
    (∀ w i j, (w, i) ∈ build_vocab train_texts →
      (w, j) ∈ build_vocab train_texts → i = j) ∧
    (∀ w1 w2 i, (w1, i) ∈ build_vocab train_texts →
      (w2, i) ∈ build_vocab train_texts → w1 = w2) ∧
    (∀ w1 i1 w2 i2, (w1, i1) ∈ build_vocab train_texts →
      (w2, i2) ∈ build_vocab train_texts → w1 ≠ "<pad>" → w2 ≠ "<pad>" →
      wordRel w1 w2 → ¬ wordRel w2 w1 → i1 < i2) ∧
    (train_texts = [] → build_vocab train_texts = [("<pad>", 0)])) :=
  ⟨by decide, claim5_vocab_amended train_texts (by decide)⟩

/-- Counterexample to C5 as stated: on the training set whose single text
is the literal word `"<pad>"`, that distinct training word keeps the
reserved id 0, so it is not assigned an id ≥ 1. -/
theorem claim5_counterexample :
    ("<pad>" ∈ (["<pad>"] : List String).flatMap pywords) ∧
    build_vocab ["<pad>"] = [("<pad>", 0)] ∧
    ¬ (∀ w ∈ (["<pad>"] : List String).flatMap pywords,
        ∃ i, (w, i) ∈ build_vocab ["<pad>"] ∧ 1 ≤ i) := by
  refine ⟨by decide, by decide, ?_⟩
  intro hall
  obtain ⟨i, hi, h1⟩ := hall "<pad>" (by decide)
  rw [show build_vocab ["<pad>"] = [("<pad>", 0)] from by decide] at hi
  simp only [List.mem_singleton, Prod.mk.injEq] at hi
  omega

end LLMOpinionSim
